import Mathlib

/-!
Verification development for the REUAnalysis repository.

The repository builds three R1CS relations with arkworks:
an ABE decryption-correctness relation (`abe-proof/src/circuit.rs`),
an ElGamal decryption-correctness relation (`elgamal-proof/src/circuit.rs`)
and a pairing-equality relation (`pairing-proof/src/circuit.rs`).

The shallow embedding below models each `generate_constraints` body at the
value level, in source order.  Library gadgets (field/group arithmetic,
pairing evaluation, SHA-256) are external collaborators of the repository;
they are modelled by their documented value semantics: a gadget computes its
mathematical result and appends constraints that are satisfied by
construction, except for `inverse`, whose constraint `x * x⁻¹ = 1` is
unsatisfiable when `x = 0` (arkworks assigns `0` to the inverse witness via
`unwrap_or_else(zero)` instead of faulting).  The pairing map and the SHA-256
compression function are kept opaque (parameters), exactly as the spec treats
them.  Constraint and witness-variable counts are structural: each gadget
call adds a count that depends only on the shapes of its inputs, mirroring
the value-independent circuit construction of the library.
-/

/-- Order of the BLS12-381 scalar field `Fr`, the native field of the
ElGamal circuit. -/
abbrev p381 : Nat :=
  52435875175126190479447740508185965837690552500527637822603658699938581184513

/-- Order of the BLS12-377 scalar field `Fr`, the emulated field of the
ABE and pairing circuits (their native field is the BLS12-377 base field). -/
abbrev r377 : Nat :=
  8444461749428370424248824938781546531375899335154063827935233455917409239041

/-- The BLS12-381 scalar field (`ark_bls12_381::Fr`). -/
abbrev Fr381 := ZMod p381

/-- The BLS12-377 scalar field (`ark_bls12_377::Fr`). -/
abbrev Fr377 := ZMod r377

instance : NeZero p381 := ⟨by decide⟩

instance : NeZero r377 := ⟨by decide⟩

instance : Fact (1 < p381) := ⟨by norm_num⟩

instance : Fact (1 < r377) := ⟨by norm_num⟩

/-- `MODULUS_BIT_SIZE` of the BLS12-381 scalar field. -/
abbrev frBitSize381 : Nat := 255

/-- `MODULUS_BIT_SIZE` of the BLS12-377 scalar field
(`Fr::MODULUS_BIT_SIZE` in `abe-proof/src/circuit.rs` line 95 and
`pairing-proof/src/circuit.rs` line 66). -/
abbrev frBitSize377 : Nat := 253

/-- The `n` low little-endian bits of a natural number.  This is the value
semantics of `to_bits_le` on a field variable: arkworks returns exactly
`MODULUS_BIT_SIZE` bits of the canonical representative, least significant
first. -/
def bitsLE : Nat → Nat → List Bool
  | 0, _ => []
  | n + 1, k => (k % 2 == 1) :: bitsLE n (k / 2)

theorem bitsLE_length (n k : Nat) : (bitsLE n k).length = n := by
  induction n generalizing k with
  | zero => rfl
  | succ n ih => simp [bitsLE, ih]

/-- Square-and-multiply / double-and-add loop shared by
`efficient_exponentiation` (`elgamal-proof/src/circuit.rs` lines 77-89),
`compute_power` (`elgamal-proof/src/main.rs` lines 23-34), the library
gadget `pow_le` and the library gadget `scalar_mul_le`: iterate over the
bits least significant first, keeping an accumulator `acc` and a running
`cur`; combine `cur` into `acc` when the bit is set, and square (double)
`cur` every step.  The combining operation `op` is multiplication for
exponentiation and addition for scalar multiplication. -/
def smLoop {α : Type _} (op : α → α → α) : α → α → List Bool → α
  | acc, _, [] => acc
  | acc, cur, b :: rest => smLoop op (if b then op acc cur else acc) (op cur cur) rest

theorem smLoop_mul_bitsLE {M : Type _} [Monoid M] (n : Nat) :
    ∀ (k : Nat) (acc cur : M),
      smLoop (· * ·) acc cur (bitsLE n k) = acc * cur ^ (k % 2 ^ n) := by
  induction n with
  | zero =>
    intro k acc cur
    simp [bitsLE, smLoop, Nat.mod_one]
  | succ n ih =>
    intro k acc cur
    have hmod : k % 2 ^ (n + 1) = k % 2 + 2 * (k / 2 % 2 ^ n) := by
      have h := Nat.mod_mul (a := 2) (b := 2 ^ n) (x := k)
      calc k % 2 ^ (n + 1) = k % (2 * 2 ^ n) := by ring_nf
        _ = k % 2 + 2 * (k / 2 % 2 ^ n) := h
    have hs : smLoop (· * ·) acc cur (bitsLE (n + 1) k)
        = smLoop (· * ·) (if k % 2 == 1 then acc * cur else acc) (cur * cur)
            (bitsLE n (k / 2)) := rfl
    rw [hs, ih]
    have hcc : cur * cur = cur ^ 2 := (sq cur).symm
    rcases Nat.mod_two_eq_zero_or_one k with h2 | h2
    · rw [h2, hmod, h2]
      rw [hcc, ← pow_mul]
      simp [Nat.mul_comm]
    · rw [h2, hmod, h2]
      simp only [show ((1 : Nat) == 1) = true from rfl, if_pos]
      rw [hcc, ← pow_mul, pow_add, pow_one, mul_assoc, Nat.mul_comm]

theorem smLoop_add_bitsLE {M : Type _} [AddMonoid M] (n : Nat) :
    ∀ (k : Nat) (acc cur : M),
      smLoop (· + ·) acc cur (bitsLE n k) = acc + (k % 2 ^ n) • cur := by
  induction n with
  | zero =>
    intro k acc cur
    simp [bitsLE, smLoop, Nat.mod_one]
  | succ n ih =>
    intro k acc cur
    have hmod : k % 2 ^ (n + 1) = k % 2 + 2 * (k / 2 % 2 ^ n) := by
      have h := Nat.mod_mul (a := 2) (b := 2 ^ n) (x := k)
      calc k % 2 ^ (n + 1) = k % (2 * 2 ^ n) := by ring_nf
        _ = k % 2 + 2 * (k / 2 % 2 ^ n) := h
    have hs : smLoop (· + ·) acc cur (bitsLE (n + 1) k)
        = smLoop (· + ·) (if k % 2 == 1 then acc + cur else acc) (cur + cur)
            (bitsLE n (k / 2)) := rfl
    rw [hs, ih]
    rcases Nat.mod_two_eq_zero_or_one k with h2 | h2
    · rw [hmod, h2]
      simp [mul_nsmul, two_nsmul]
    · rw [hmod, h2]
      simp only [show ((1 : Nat) == 1) = true from rfl, if_pos]
      rw [add_nsmul, one_nsmul, mul_nsmul, two_nsmul, add_assoc]

/-- Little-endian value of a chunk of at most 8 bits: the value semantics of
`UInt8::from_bits_le`. -/
def byteFromBitsLE (bs : List Bool) : Nat :=
  bs.foldr (fun b acc => (if b then 1 else 0) + 2 * acc) 0

/-- The `[Boolean::FALSE; 8]` array that `field_to_bytes_optimized` copies a
chunk into (`elgamal-proof/src/circuit.rs` lines 102-105): the chunk followed
by constant-false bits up to 8. -/
def padTo8 (c : List Bool) : List Bool := c ++ List.replicate (8 - c.length) false

/-- Fuelled worker for `chunkMap`; the fuel (instantiated with the list
length) makes the recursion structural, so that concrete instances reduce
inside the kernel. -/
def chunkMapGo {α β : Type _} (n : Nat) (f : List α → β) : Nat → List α → List β
  | 0, _ => []
  | _, [] => []
  | fuel + 1, a :: l => f ((a :: l).take n) :: chunkMapGo n f fuel ((a :: l).drop n)

/-- `chunks(n)` followed by a per-chunk map: every chunk is produced,
including a final partial one. -/
def chunkMap {α β : Type _} (n : Nat) (f : List α → β) (bs : List α) : List β :=
  chunkMapGo n f bs.length bs

theorem chunkMapGo_congr {α β : Type _} (n : Nat) (f : List α → β) (hn : 0 < n) :
    ∀ (f1 : Nat), ∀ (f2 : Nat) (bs : List α), bs.length ≤ f1 → bs.length ≤ f2 →
      chunkMapGo n f f1 bs = chunkMapGo n f f2 bs := by
  intro f1
  induction f1 with
  | zero =>
    intro f2 bs h1 h2
    have hnil : bs = [] := List.length_eq_zero.mp (Nat.le_zero.mp h1)
    subst hnil
    cases f2 <;> rfl
  | succ f1 ih =>
    intro f2 bs h1 h2
    cases bs with
    | nil => cases f2 <;> rfl
    | cons a l =>
      cases f2 with
      | zero => simp at h2
      | succ f2 =>
        simp only [chunkMapGo]
        have hlen : ((a :: l).drop n).length ≤ f1 := by
          simp only [List.length_drop, List.length_cons]
          simp only [List.length_cons] at h1
          omega
        have hlen2 : ((a :: l).drop n).length ≤ f2 := by
          simp only [List.length_drop, List.length_cons]
          simp only [List.length_cons] at h2
          omega
        rw [ih f2 _ hlen hlen2]

theorem chunkMap_nil {α β : Type _} (n : Nat) (f : List α → β) :
    chunkMap n f [] = [] := rfl

theorem chunkMap_cons {α β : Type _} (n : Nat) (f : List α → β) (hn : 0 < n)
    (bs : List α) (h : bs ≠ []) :
    chunkMap n f bs = f (bs.take n) :: chunkMap n f (bs.drop n) := by
  cases bs with
  | nil => exact absurd rfl h
  | cons a l =>
    show chunkMapGo n f (l.length + 1) (a :: l)
      = f ((a :: l).take n) :: chunkMap n f ((a :: l).drop n)
    simp only [chunkMapGo, chunkMap]
    rw [chunkMapGo_congr n f hn l.length ((a :: l).drop n).length ((a :: l).drop n)
      (by simp only [List.length_drop, List.length_cons]; omega) (Nat.le_refl _)]

/-- Byte packing of `field_to_bytes_optimized`
(`elgamal-proof/src/circuit.rs` lines 100-109): iterate `bits.chunks(8)` and
turn each chunk, zero-padded to 8 bits, into a byte with
`UInt8::from_bits_le`. -/
def packChunks8 (bs : List Bool) : List Nat :=
  chunkMap 8 (fun c => byteFromBitsLE (padTo8 c)) bs

/-- Fuelled worker for `packExact8` (fuel = list length, structural). -/
def packExact8Go : Nat → List Bool → List Nat
  | 0, _ => []
  | fuel + 1, bs =>
    if bs.length < 8 then []
    else byteFromBitsLE (bs.take 8) :: packExact8Go fuel (bs.drop 8)

/-- Byte packing with `chunks_exact(8)` followed by `UInt8::from_bits_le`, as
in `abe-proof/src/circuit.rs` lines 102-104 and
`pairing-proof/src/circuit.rs` lines 76-79: only complete 8-bit chunks are
consumed. -/
def packExact8 (bs : List Bool) : List Nat :=
  packExact8Go bs.length bs

theorem packExact8Go_congr : ∀ (f1 : Nat), ∀ (f2 : Nat) (bs : List Bool),
    bs.length ≤ f1 → bs.length ≤ f2 → packExact8Go f1 bs = packExact8Go f2 bs := by
  intro f1
  induction f1 with
  | zero =>
    intro f2 bs h1 h2
    have hnil : bs = [] := List.length_eq_zero.mp (Nat.le_zero.mp h1)
    subst hnil
    cases f2 with
    | zero => rfl
    | succ f2 =>
      show [] = packExact8Go (f2 + 1) []
      simp [packExact8Go]
  | succ f1 ih =>
    intro f2 bs h1 h2
    by_cases hsmall : bs.length < 8
    · cases f2 with
      | zero =>
        have hnil : bs = [] := List.length_eq_zero.mp (Nat.le_zero.mp h2)
        subst hnil
        simp [packExact8Go]
      | succ f2 => simp [packExact8Go, hsmall]
    · have hpos : 0 < bs.length := by omega
      cases f2 with
      | zero => omega
      | succ f2 =>
        simp only [packExact8Go, if_neg hsmall]
        have hl1 : (bs.drop 8).length ≤ f1 := by
          simp only [List.length_drop]
          omega
        have hl2 : (bs.drop 8).length ≤ f2 := by
          simp only [List.length_drop]
          omega
        rw [ih f2 _ hl1 hl2]

/-- Modelled from the spec (§4.3, input byte construction): the little-endian
bit sequence is zero-padded with exactly `(8 - bitlength % 8) % 8` false bits
up to the next multiple of 8 and then packed 8 bits at a time, least
significant bit first, into bytes. -/
def paddedPackSpec (bs : List Bool) : List Nat :=
  packExact8 (bs ++ List.replicate ((8 - bs.length % 8) % 8) false)

theorem packChunks8_nil : packChunks8 [] = [] := rfl

theorem packChunks8_cons (bs : List Bool) (h : bs ≠ []) :
    packChunks8 bs = byteFromBitsLE (padTo8 (bs.take 8)) :: packChunks8 (bs.drop 8) :=
  chunkMap_cons 8 _ (by omega) bs h

theorem packExact8_small (bs : List Bool) (h : bs.length < 8) : packExact8 bs = [] := by
  rw [packExact8]
  cases hl : bs.length with
  | zero => rfl
  | succ m =>
    rw [hl] at h
    simp [packExact8Go, hl ▸ h]

theorem packExact8_cons (bs : List Bool) (h : 8 ≤ bs.length) :
    packExact8 bs = byteFromBitsLE (bs.take 8) :: packExact8 (bs.drop 8) := by
  rw [packExact8]
  cases hl : bs.length with
  | zero => omega
  | succ m =>
    have hns : ¬ bs.length < 8 := Nat.not_lt.mpr h
    simp only [packExact8Go, if_neg hns]
    rw [packExact8, packExact8Go_congr m (bs.drop 8).length (bs.drop 8)
      (by simp only [List.length_drop]; omega) (Nat.le_refl _)]

theorem packChunks8_eq_paddedPackSpec_aux (n : Nat) :
    ∀ bs : List Bool, bs.length ≤ n → packChunks8 bs = paddedPackSpec bs := by
  induction n with
  | zero =>
    intro bs hlen
    have hnil : bs = [] := List.length_eq_zero.mp (Nat.le_zero.mp hlen)
    subst hnil
    rw [packChunks8_nil]
    rw [paddedPackSpec]
    simp only [List.length_nil, Nat.zero_mod, Nat.sub_zero, Nat.mod_self,
      List.replicate_zero, List.nil_append]
    exact (packExact8_small [] (by simp)).symm
  | succ n ih =>
    intro bs hlen
    rcases eq_or_ne bs [] with hnil | hne
    · subst hnil
      rw [packChunks8_nil, paddedPackSpec]
      simp only [List.length_nil, Nat.zero_mod, Nat.sub_zero, Nat.mod_self,
        List.replicate_zero, List.nil_append]
      exact (packExact8_small [] (by simp)).symm
    · have hpos : 0 < bs.length := List.length_pos.mpr hne
      rw [packChunks8_cons bs hne, paddedPackSpec]
      by_cases hbig : 8 ≤ bs.length
      · have htake : (bs ++ List.replicate ((8 - bs.length % 8) % 8) false).take 8 = bs.take 8 :=
          List.take_append_of_le_length hbig
        have hdrop : (bs ++ List.replicate ((8 - bs.length % 8) % 8) false).drop 8
            = bs.drop 8 ++ List.replicate ((8 - bs.length % 8) % 8) false :=
          List.drop_append_of_le_length hbig
        have hlen8 : (bs.take 8).length = 8 := by
          simp [List.length_take]
          omega
        have hpad : padTo8 (bs.take 8) = bs.take 8 := by
          rw [padTo8, hlen8]
          simp
        have hmod : (bs.drop 8).length % 8 = bs.length % 8 := by
          simp only [List.length_drop]
          omega
        rw [packExact8_cons _ (by simp [List.length_append, List.length_replicate]; omega),
          htake, hdrop, hpad]
        have := ih (bs.drop 8) (by simp only [List.length_drop]; omega)
        rw [this, paddedPackSpec, hmod]
      · have hsmall : bs.length < 8 := Nat.not_le.mp hbig
        have htakeall : bs.take 8 = bs := List.take_of_length_le (Nat.le_of_lt hsmall)
        have hdropall : bs.drop 8 = [] := List.drop_eq_nil_of_le (Nat.le_of_lt hsmall)
        rw [htakeall, hdropall, packChunks8_nil]
        have hpadlen : (bs ++ List.replicate ((8 - bs.length % 8) % 8) false).length = 8 := by
          simp only [List.length_append, List.length_replicate]
          omega
        have hpadded : padTo8 bs = bs ++ List.replicate ((8 - bs.length % 8) % 8) false := by
          rw [padTo8]
          have : 8 - bs.length = (8 - bs.length % 8) % 8 := by omega
          rw [this]
        rw [packExact8_cons _ (by omega), hpadded]
        rw [List.take_of_length_le (by omega), List.drop_eq_nil_of_le (by omega)]
        rw [packExact8_small [] (by simp)]

theorem packChunks8_eq_paddedPackSpec (bs : List Bool) :
    packChunks8 bs = paddedPackSpec bs :=
  packChunks8_eq_paddedPackSpec_aux bs.length bs (Nat.le_refl _)

/-- Synthesis error type.  `panicked` models a Rust `assert!`/slice panic
inside `generate_constraints`; `degenerateWitness` is the distinct
inversion-of-zero report that the spec's error taxonomy (§7, item 3)
demands.  Successful synthesis returns `Except.ok ()`, mirroring
`Result<(), SynthesisError>`. -/
inductive SynthErr where
  | panicked : SynthErr
  | degenerateWitness : SynthErr
deriving DecidableEq

/-- Interface to the external SHA-256 implementation, both the in-circuit
gadget (`Sha256Gadget::evaluate`) and the out-of-circuit hasher used by the
callers: an opaque byte-level hash with 32-byte output whose constraint and
witness cost depend only on the input byte count (spec §4.3). -/
structure HashOps where
  sha256 : List Nat → List Nat
  outLen32 : ∀ bs, (sha256 bs).length = 32
  witCost : Nat → Nat
  conCost : Nat → Nat

/-- Hash interface instantiated with a constant function; used to evaluate
the synthesis trace on concrete inputs. -/
def constHashOps : HashOps where
  sha256 := fun _ => List.replicate 32 0
  outLen32 := fun _ => by simp
  witCost := fun _ => 0
  conCost := fun _ => 0

/-- Constraint-system accumulator of one ElGamal synthesis call (spec §3):
public-variable, witness-variable and constraint counts, the public input
assignment in allocation order, and satisfaction of the constraints emitted
so far.  Counts are structural: each gadget adds an amount depending only on
input shapes, matching the value-independent construction of the library
gadgets (spec §4.1). -/
structure CS where
  nInst : Nat
  nWit : Nat
  nCon : Nat
  inst : List Fr381
  sat : Prop

/-- Fresh constraint system (everything satisfied vacuously). -/
def CS.init : CS := ⟨0, 0, 0, [], True⟩

/-- Little-endian value of a byte list. -/
def leBytesVal (bs : List Nat) : Nat := bs.foldr (fun b acc => b + 256 * acc) 0

/-- Packing of input bytes into field elements performed by
`UInt8::new_input_vec`: chunks of `MODULUS_BIT_SIZE / 8 = 31` bytes, each
allocated as one public field element holding the little-endian packed
value.  The external verifier consumes these packed elements positionally
(`extract_public_inputs` in `elgamal-proof/src/main.rs`). -/
def packBytesToFields (bs : List Nat) : List Fr381 :=
  chunkMap 31 (fun c => ((leBytesVal c : Nat) : Fr381)) bs

/-- `FpVar::new_input`: allocate one public field variable. -/
def newInput (cs : CS) (v : Fr381) : Fr381 × CS :=
  (v, { cs with nInst := cs.nInst + 1, inst := cs.inst ++ [v] })

/-- `FpVar::new_witness`: allocate one private field variable. -/
def newWitness (cs : CS) (v : Fr381) : Fr381 × CS :=
  (v, { cs with nWit := cs.nWit + 1 })

/-- `UInt8::new_input_vec`: allocate a byte vector as packed public field
elements plus the byte-level bit witnesses and packing constraints. -/
def uint8NewInputVec (cs : CS) (bs : List Nat) : List Nat × CS :=
  (bs, { cs with
    nInst := cs.nInst + (packBytesToFields bs).length,
    inst := cs.inst ++ packBytesToFields bs,
    nWit := cs.nWit + 8 * bs.length,
    nCon := cs.nCon + (packBytesToFields bs).length })

/-- Field multiplication gadget (`&a * &b`): one product witness and one
rank-1 constraint, satisfied by construction. -/
def fpMul (cs : CS) (a b : Fr381) : Fr381 × CS :=
  (a * b, { cs with nWit := cs.nWit + 1, nCon := cs.nCon + 1 })

/-- `Boolean::select` (the value-independent conditional of spec §9): one
selected witness and one constraint, satisfied by construction. -/
def boolSelect (cs : CS) (b : Bool) (x y : Fr381) : Fr381 × CS :=
  (if b then x else y, { cs with nWit := cs.nWit + 1, nCon := cs.nCon + 1 })

/-- `FpVar::to_bits_le`: `MODULUS_BIT_SIZE = 255` bit witnesses of the
canonical representative plus one recomposition constraint. -/
def fpToBitsLE (cs : CS) (x : Fr381) : List Bool × CS :=
  (bitsLE frBitSize381 x.val,
   { cs with nWit := cs.nWit + frBitSize381, nCon := cs.nCon + 1 })

/-- `FpVar::inverse`: arkworks allocates the inverse witness with value
`self.value()?.inverse().unwrap_or_else(zero)` — no fault on zero — and
enforces `x * inv = 1`, which is unsatisfiable exactly when `x = 0`.
`ZMod.inv` has the same values (`(0 : ZMod n)⁻¹ = 0`). -/
def fpInverse (cs : CS) (x : Fr381) : Fr381 × CS :=
  (x⁻¹,
   { cs with
      nWit := cs.nWit + 1
      nCon := cs.nCon + 1
      sat := cs.sat ∧ x * x⁻¹ = 1 })

/-- `Sha256Gadget::evaluate` followed by `to_bytes_le` on the digest: the
opaque external hash gadget (spec §4.3); cost is a function of the byte
count only. -/
def sha256Gadget (hops : HashOps) (cs : CS) (bytes : List Nat) : List Nat × CS :=
  (hops.sha256 bytes,
   { cs with nWit := cs.nWit + hops.witCost bytes.length,
             nCon := cs.nCon + hops.conCost bytes.length })

/-- `batch_equality_check` (`elgamal-proof/src/circuit.rs` lines 115-130):
`assert_eq!` both lengths are 32 (a panic, not a constraint, on violation),
then 32 byte equality constraints. -/
def batchEqualityCheck (cs : CS) (hashBytes bidBytes : List Nat) :
    Except SynthErr Unit × CS :=
  if hashBytes.length = 32 ∧ bidBytes.length = 32 then
    (Except.ok (), { cs with nCon := cs.nCon + 32, sat := cs.sat ∧ hashBytes = bidBytes })
  else (Except.error SynthErr.panicked, cs)

/-- Loop body of `efficient_exponentiation`
(`elgamal-proof/src/circuit.rs` lines 81-88): per bit, `temp = result *
current_base`, `result = bit.select(temp, result)`, square the base. -/
def expLoop (cs : CS) (res cur : Fr381) : List Bool → Fr381 × CS
  | [] => (res, cs)
  | b :: rest =>
    let t := fpMul cs res cur
    let r := boolSelect t.2 b t.1 res
    let c := fpMul r.2 cur cur
    expLoop c.2 r.1 c.1 rest

/-- `efficient_exponentiation` (`elgamal-proof/src/circuit.rs` lines 73-91):
decompose the exponent to little-endian bits and run square-and-multiply
with a constraint-count independent of the bit values. -/
def efficientExponentiation (cs : CS) (base exp2 : Fr381) : Fr381 × CS :=
  let bits := fpToBitsLE cs exp2
  expLoop bits.2 1 base bits.1

/-- `field_to_bytes_optimized` (`elgamal-proof/src/circuit.rs` lines
95-112): bit decomposition followed by chunked byte packing. -/
def fieldToBytesGadget (cs : CS) (x : Fr381) : List Nat × CS :=
  let bits := fpToBitsLE cs x
  (packChunks8 bits.1, bits.2)

/-- `OptimizedElGamalEncryptionCircuit::generate_constraints`
(`elgamal-proof/src/circuit.rs` lines 29-67), in source order: allocate
`c1, c2` as public inputs, the block id bytes as packed public inputs, `hdk`
as witness; compute `s = c1^hdk`, `inverse_s = s.inverse()`,
`m = c2 * inverse_s`; convert `m` to bytes, hash, and batch-compare the
digest with the block id. -/
def elgamalGenerateConstraints (hops : HashOps) (ct : Fr381 × Fr381)
    (bid : List Nat) (hdk : Fr381) : Except SynthErr Unit × CS :=
  let s0 := CS.init
  let c1v := newInput s0 ct.1
  let c2v := newInput c1v.2 ct.2
  let bidv := uint8NewInputVec c2v.2 bid
  let hdkv := newWitness bidv.2 hdk
  let sv := efficientExponentiation hdkv.2 c1v.1 hdkv.1
  let invv := fpInverse sv.2 sv.1
  let mv := fpMul invv.2 c2v.1 invv.1
  let mbytes := fieldToBytesGadget mv.2 mv.1
  let hashv := sha256Gadget hops mbytes.2 mbytes.1
  if 32 ≤ hashv.1.length then
    batchEqualityCheck hashv.2 (hashv.1.take 32) bidv.1
  else (Except.error SynthErr.panicked, hashv.2)

/-- `compute_power` (`elgamal-proof/src/main.rs` lines 21-35): out-of-circuit
square-and-multiply over `into_bigint().to_bits_le()`, which yields all
`4 * 64 = 256` limb bits of the canonical representative. -/
def computePower (base exponent : Fr381) : Fr381 :=
  smLoop (· * ·) 1 base (bitsLE 256 exponent.val)

theorem expLoop_spec (bs : List Bool) : ∀ (cs : CS) (res cur : Fr381),
    expLoop cs res cur bs =
      (smLoop (· * ·) res cur bs,
       CS.mk cs.nInst (cs.nWit + 3 * bs.length) (cs.nCon + 3 * bs.length) cs.inst cs.sat) := by
  induction bs with
  | nil =>
    intro cs res cur
    simp [expLoop, smLoop]
  | cons b rest ih =>
    intro cs res cur
    simp only [expLoop, fpMul, boolSelect]
    rw [ih]
    simp only [smLoop, List.length_cons, Prod.mk.injEq, CS.mk.injEq, eq_self_iff_true,
      true_and, and_true]
    omega

theorem packChunks8_length_aux (n : Nat) :
    ∀ bs : List Bool, bs.length ≤ n → (packChunks8 bs).length = (bs.length + 7) / 8 := by
  induction n with
  | zero =>
    intro bs hlen
    have hnil : bs = [] := List.length_eq_zero.mp (Nat.le_zero.mp hlen)
    subst hnil
    rw [packChunks8_nil]
    rfl
  | succ n ih =>
    intro bs hlen
    rcases eq_or_ne bs [] with hnil | hne
    · subst hnil
      rw [packChunks8_nil]
      rfl
    · have hpos : 0 < bs.length := List.length_pos.mpr hne
      rw [packChunks8_cons bs hne]
      have hrec := ih (bs.drop 8) (by simp only [List.length_drop]; omega)
      simp only [List.length_cons, hrec, List.length_drop]
      omega

theorem packChunks8_length (bs : List Bool) :
    (packChunks8 bs).length = (bs.length + 7) / 8 :=
  packChunks8_length_aux bs.length bs (Nat.le_refl _)

theorem packChunks8_bits381_length (k : Nat) :
    (packChunks8 (bitsLE frBitSize381 k)).length = 32 := by
  rw [packChunks8_length, bitsLE_length]
  norm_num

theorem packBytesToFields_nil : packBytesToFields [] = [] := rfl

theorem packBytesToFields_cons (bs : List Nat) (h : bs ≠ []) :
    packBytesToFields bs
      = ((leBytesVal (bs.take 31) : Nat) : Fr381) :: packBytesToFields (bs.drop 31) :=
  chunkMap_cons 31 _ (by omega) bs h

theorem packBytesToFields_length32 (bs : List Nat) (h : bs.length = 32) :
    (packBytesToFields bs).length = 2 := by
  have hne : bs ≠ [] := by
    intro hh
    subst hh
    simp at h
  have hd1 : (bs.drop 31).length = 1 := by
    simp [List.length_drop, h]
  have hne1 : bs.drop 31 ≠ [] := by
    intro hh
    rw [hh] at hd1
    simp at hd1
  have hd2 : ((bs.drop 31).drop 31) = [] := by
    have : ((bs.drop 31).drop 31).length = 0 := by
      simp [List.length_drop, h]
    exact List.length_eq_zero.mp this
  rw [packBytesToFields_cons bs hne, packBytesToFields_cons _ hne1, hd2,
    packBytesToFields_nil]
  rfl

theorem smLoop_pow381 (b e : Fr381) :
    smLoop (· * ·) 1 b (bitsLE frBitSize381 e.val) = b ^ e.val := by
  rw [smLoop_mul_bitsLE, one_mul, Nat.mod_eq_of_lt]
  exact lt_trans (ZMod.val_lt e) (by norm_num)

theorem mul_inv_eq_one_iff_isUnit381 (s : Fr381) : s * s⁻¹ = 1 ↔ IsUnit s :=
  ⟨fun h => isUnit_of_mul_eq_one _ _ h, fun h => ZMod.mul_inv_of_unit s h⟩

theorem take32_of_length32 {l : List Nat} (h : l.length = 32) : l.take 32 = l := by
  rw [← h, List.take_length]

theorem sha_take32 (hops : HashOps) (bs : List Nat) :
    (hops.sha256 bs).take 32 = hops.sha256 bs :=
  take32_of_length32 (hops.outLen32 bs)

set_option maxRecDepth 8000 in
theorem elgamal_synth_parts (hops : HashOps) (ct : Fr381 × Fr381) (bid : List Nat)
    (hdk : Fr381) (hbid : bid.length = 32) :
    (elgamalGenerateConstraints hops ct bid hdk).1 = Except.ok () ∧
    (elgamalGenerateConstraints hops ct bid hdk).2.nInst
      = 2 + (packBytesToFields bid).length ∧
    (elgamalGenerateConstraints hops ct bid hdk).2.nWit = 1534 + hops.witCost 32 ∧
    (elgamalGenerateConstraints hops ct bid hdk).2.nCon
      = (packBytesToFields bid).length + 801 + hops.conCost 32 ∧
    (elgamalGenerateConstraints hops ct bid hdk).2.inst
      = [ct.1, ct.2] ++ packBytesToFields bid ∧
    ((elgamalGenerateConstraints hops ct bid hdk).2.sat ↔
      IsUnit (ct.1 ^ hdk.val) ∧
        hops.sha256 (packChunks8 (bitsLE frBitSize381
          (ct.2 * (ct.1 ^ hdk.val)⁻¹).val)) = bid) := by
  simp only [frBitSize381, elgamalGenerateConstraints, CS.init, newInput, newWitness, uint8NewInputVec,
    efficientExponentiation, fpToBitsLE, expLoop_spec, fieldToBytesGadget, fpInverse,
    fpMul, sha256Gadget, batchEqualityCheck, bitsLE_length, packChunks8_bits381_length,
    hops.outLen32, hbid, List.length_take, sha_take32, smLoop_pow381,
    mul_inv_eq_one_iff_isUnit381, Nat.min_self, le_refl, if_true, and_self, if_pos,
    true_and, List.nil_append, List.append_assoc, List.cons_append]
  repeat' apply And.intro
  all_goals first | trivial | omega

/-- C3: the ElGamal relation's synthesized constraint system is satisfied
exactly when the enforced equations hold for the supplied
`(c1, c2, digest, hdk)`: with `s = c1^hdk` (the square-and-multiply value
over `hdk`'s little-endian bits, see `smLoop_pow381`), `s` must be
invertible — making the recovered message `m = c2 * s⁻¹` well defined — and
the in-circuit SHA-256 digest of `m`'s byte decomposition must equal the
32-byte public digest byte for byte. -/
theorem elgamal_relation_sat_iff (hops : HashOps) (ct : Fr381 × Fr381)
    (bid : List Nat) (hdk : Fr381) (hbid : bid.length = 32) :
    (elgamalGenerateConstraints hops ct bid hdk).2.sat ↔
      (IsUnit (ct.1 ^ hdk.val) ∧
       hops.sha256 (packChunks8 (bitsLE frBitSize381
         (ct.2 * (ct.1 ^ hdk.val)⁻¹).val)) = bid) :=
  (elgamal_synth_parts hops ct bid hdk hbid).2.2.2.2.2

theorem elgamal_relation_sat_iff_witness :
    (List.replicate 32 0).length = 32 ∧
    ((elgamalGenerateConstraints constHashOps (0, 0) (List.replicate 32 0) 1).2.sat ↔
      (IsUnit ((0 : Fr381) ^ (1 : Fr381).val) ∧
       constHashOps.sha256 (packChunks8 (bitsLE frBitSize381
         ((0 : Fr381) * ((0 : Fr381) ^ (1 : Fr381).val)⁻¹).val)) = List.replicate 32 0)) :=
  ⟨by decide,
   elgamal_relation_sat_iff constHashOps (0, 0) (List.replicate 32 0) 1 (by decide)⟩

/-- C5: every witness that makes `s = c1^hdk` the field's zero element
still synthesizes to completion with `Ok(())` — no runtime fault — and the
resulting constraint system is unsatisfiable, because the inverse gadget's
constraint `s * s⁻¹ = 1` cannot hold at `s = 0`. -/
theorem elgamal_zero_s_no_panic_unsat (hops : HashOps) (ct : Fr381 × Fr381)
    (bid : List Nat) (hdk : Fr381) (hbid : bid.length = 32)
    (hs : ct.1 ^ hdk.val = 0) :
    (elgamalGenerateConstraints hops ct bid hdk).1 = Except.ok () ∧
    ¬ (elgamalGenerateConstraints hops ct bid hdk).2.sat := by
  obtain ⟨hok, _, _, _, _, hsat⟩ := elgamal_synth_parts hops ct bid hdk hbid
  refine ⟨hok, fun h => ?_⟩
  have hu := (hsat.mp h).1
  rw [hs] at hu
  exact not_isUnit_zero hu

theorem elgamal_zero_s_no_panic_unsat_witness :
    ((List.replicate 32 0).length = 32 ∧ (0 : Fr381) ^ (1 : Fr381).val = 0) ∧
    ((elgamalGenerateConstraints constHashOps (0, 0) (List.replicate 32 0) 1).1
        = Except.ok () ∧
     ¬ (elgamalGenerateConstraints constHashOps (0, 0) (List.replicate 32 0) 1).2.sat) :=
  ⟨⟨by decide, by rw [ZMod.val_one, pow_one]⟩,
   elgamal_zero_s_no_panic_unsat constHashOps (0, 0) (List.replicate 32 0) 1
     (by decide) (by rw [ZMod.val_one, pow_one])⟩

/-- C6 counterexample: at the degenerate input `c1 = 0, hdk = 1` (which
forces `s = 0`), synthesis reports no error condition at all — certainly
not a distinct `DegenerateWitness` — it returns `Ok(())` exactly like a
successful run, so the degenerate case is not distinguishable from generic
unsatisfiability by the caller. -/
theorem elgamal_no_degenerate_error_cex :
    (elgamalGenerateConstraints constHashOps (0, 0) (List.replicate 32 0) 1).1
        = Except.ok () ∧
    (elgamalGenerateConstraints constHashOps (0, 0) (List.replicate 32 0) 1).1
        ≠ Except.error SynthErr.degenerateWitness := by
  have h := (elgamal_synth_parts constHashOps (0, 0) (List.replicate 32 0) 1 (by decide)).1
  refine ⟨h, ?_⟩
  rw [h]
  intro hh
  cases hh

/-- C6 (amended): the ElGamal synthesis never reports any error for a
32-byte digest input.  A witness that makes an inversion operate on zero is
therefore not surfaced as a distinct `DegenerateWitness` condition; it is
observable only as generic unsatisfiability of the returned system. -/
theorem elgamal_synthesis_always_ok (hops : HashOps) (ct : Fr381 × Fr381)
    (bid : List Nat) (hdk : Fr381) (hbid : bid.length = 32) :
    (elgamalGenerateConstraints hops ct bid hdk).1 = Except.ok () :=
  (elgamal_synth_parts hops ct bid hdk hbid).1

theorem elgamal_synthesis_always_ok_witness :
    (List.replicate 32 0).length = 32 ∧
    (elgamalGenerateConstraints constHashOps (0, 0) (List.replicate 32 0) 1).1
        = Except.ok () :=
  ⟨by decide,
   elgamal_synthesis_always_ok constHashOps (0, 0) (List.replicate 32 0) 1 (by decide)⟩

/-- C7: any two syntheses of the ElGamal relation — different witness values
and different (same-shaped) public inputs — produce constraint systems with
identical constraint counts and identical witness-variable counts, and both
allocate their public input variables in the same fixed order: `c1`, `c2`,
then the packed digest bytes. -/
theorem elgamal_witness_obliviousness (hops : HashOps)
    (ct ctB : Fr381 × Fr381) (bid bidB : List Nat) (hdk hdkB : Fr381)
    (hbid : bid.length = 32) (hbidB : bidB.length = 32) :
    (elgamalGenerateConstraints hops ct bid hdk).2.nCon
      = (elgamalGenerateConstraints hops ctB bidB hdkB).2.nCon ∧
    (elgamalGenerateConstraints hops ct bid hdk).2.nWit
      = (elgamalGenerateConstraints hops ctB bidB hdkB).2.nWit ∧
    (elgamalGenerateConstraints hops ct bid hdk).2.inst
      = [ct.1, ct.2] ++ packBytesToFields bid ∧
    (elgamalGenerateConstraints hops ctB bidB hdkB).2.inst
      = [ctB.1, ctB.2] ++ packBytesToFields bidB := by
  obtain ⟨_, _, hW, hC, hI, _⟩ := elgamal_synth_parts hops ct bid hdk hbid
  obtain ⟨_, _, hWB, hCB, hIB, _⟩ := elgamal_synth_parts hops ctB bidB hdkB hbidB
  refine ⟨?_, ?_, hI, hIB⟩
  · rw [hC, hCB, packBytesToFields_length32 _ hbid, packBytesToFields_length32 _ hbidB]
  · rw [hW, hWB]

theorem elgamal_witness_obliviousness_witness :
    ((List.replicate 32 0).length = 32 ∧ (List.replicate 32 1).length = 32) ∧
    ((elgamalGenerateConstraints constHashOps (1, 2) (List.replicate 32 0) 5).2.nCon
      = (elgamalGenerateConstraints constHashOps (3, 4) (List.replicate 32 1) 7).2.nCon ∧
    (elgamalGenerateConstraints constHashOps (1, 2) (List.replicate 32 0) 5).2.nWit
      = (elgamalGenerateConstraints constHashOps (3, 4) (List.replicate 32 1) 7).2.nWit ∧
    (elgamalGenerateConstraints constHashOps (1, 2) (List.replicate 32 0) 5).2.inst
      = [(1 : Fr381), (2 : Fr381)] ++ packBytesToFields (List.replicate 32 0) ∧
    (elgamalGenerateConstraints constHashOps (3, 4) (List.replicate 32 1) 7).2.inst
      = [(3 : Fr381), (4 : Fr381)] ++ packBytesToFields (List.replicate 32 1)) :=
  ⟨⟨by decide, by decide⟩,
   elgamal_witness_obliviousness constHashOps (1, 2) (3, 4) (List.replicate 32 0)
     (List.replicate 32 1) 5 7 (by decide) (by decide)⟩

/-- C10: the in-circuit `efficient_exponentiation` and the out-of-circuit
helper `compute_power` compute the same field element for every base and
exponent, both equal to the base raised to the exponent's canonical integer
representative; in particular both return 1 when the exponent is 0. -/
theorem exponentiation_refinement (cs : CS) (b e : Fr381) :
    (efficientExponentiation cs b e).1 = computePower b e ∧
    (efficientExponentiation cs b e).1 = b ^ e.val ∧
    (efficientExponentiation cs b 0).1 = 1 := by
  have hval : ∀ x : Fr381, (efficientExponentiation cs b x).1 = b ^ x.val := by
    intro x
    simp only [efficientExponentiation, fpToBitsLE, expLoop_spec]
    exact smLoop_pow381 b x
  have hcp : computePower b e = b ^ e.val := by
    rw [computePower, smLoop_mul_bitsLE, one_mul, Nat.mod_eq_of_lt]
    exact lt_trans (ZMod.val_lt e) (by norm_num)
  refine ⟨?_, hval e, ?_⟩
  · rw [hval e, hcp]
  · rw [hval 0]
    simp [ZMod.val_zero]

theorem smLoop_pow377 {M : Type _} [Monoid M] (b : M) (e : Fr377) :
    smLoop (· * ·) 1 b (bitsLE frBitSize377 e.val) = b ^ e.val := by
  rw [smLoop_mul_bitsLE, one_mul, Nat.mod_eq_of_lt]
  exact lt_trans (ZMod.val_lt e) (by norm_num)

theorem smLoop_smul377 {M : Type _} [AddMonoid M] (P : M) (e : Fr377) :
    smLoop (· + ·) 0 P (bitsLE frBitSize377 e.val) = e.val • P := by
  rw [smLoop_add_bitsLE, zero_add, Nat.mod_eq_of_lt]
  exact lt_trans (ZMod.val_lt e) (by norm_num)

/-- Bytes of `k` hashed by the ABE circuit (`abe-proof/src/circuit.rs` lines
94-104): the `MODULUS_BIT_SIZE = 253` little-endian bits of `k`, padded with
`(8 - MODULUS_BIT_SIZE % 8) % 8` constant-false bits and packed with
`chunks_exact(8)` and `UInt8::from_bits_le`. -/
def abeKBytes (k : Fr377) : List Nat :=
  packExact8 (bitsLE frBitSize377 k.val
    ++ List.replicate ((8 - frBitSize377 % 8) % 8) false)

/-- Bytes of `gamma` hashed by the pairing circuit
(`pairing-proof/src/circuit.rs` lines 64-79); the same construction as in
the ABE circuit. -/
def pairingGammaBytes (gamma : Fr377) : List Nat :=
  packExact8 (bitsLE frBitSize377 gamma.val
    ++ List.replicate ((8 - frBitSize377 % 8) % 8) false)

/-- Satisfaction of the constraint system synthesized by
`PairingCircuit::generate_constraints` of the ABE relation
(`abe-proof/src/circuit.rs` lines 48-162), in source order.  The group `G1`,
the second-group type `G2` and the target group `GT` together with the
pairing map, the generators and the hash are the external collaborators
(spec §4.2/§4.3); emulated `Fr` arithmetic is concrete `ZMod`.  Every
`enforce_equal` call contributes one conjunct; the final block (source lines
152-161) computes the two pairing values `lhs`/`rhs` of check (6) but emits
no constraint on them, which is mirrored here by the unused bindings. -/
def abeSat {G1 G2 GT : Type _} [AddCommMonoid G1] [CommGroup GT]
    (pairing : G1 → G2 → GT) (g1Gen : G1) (g2Gen : G2)
    (sha : List Nat → List Nat)
    (s k lam t w : Fr377) (ct0 ct1 : GT) (ct2 : G1) (ct3 : Fr377) (ct4 : G1)
    (attr : G1) (pk0 : GT) (pk1 : Fr377) (bid : List Nat) : Prop :=
  let basePairing := pairing g1Gen g2Gen
  let g : Fr377 := 2
  let tBits := bitsLE frBitSize377 t.val
  let lamBits := bitsLE frBitSize377 lam.val
  let wBits := bitsLE frBitSize377 w.val
  let kBytes := abeKBytes k
  let hashOk := sha kBytes = bid
  let kPlusS := k + s
  let expectedCt0 := smLoop (· * ·) 1 basePairing (bitsLE frBitSize377 kPlusS.val)
  let ct0Ok := ct0 = expectedCt0
  let eggLambda := smLoop (· * ·) 1 basePairing lamBits
  let c1Divided := ct1 * eggLambda⁻¹
  let pk0Raised := smLoop (· * ·) 1 pk0 tBits
  let ct1Ok := c1Divided = pk0Raised
  let negT := -t
  let gNegT := smLoop (· + ·) 0 g1Gen (bitsLE frBitSize377 negT.val)
  let ct2Ok := ct2 = gNegT
  let pk1ToT := smLoop (· * ·) 1 pk1 tBits
  let gToW := smLoop (· * ·) 1 g wBits
  let ct3Ok := ct3 = pk1ToT * gToW
  let attrPowT := smLoop (· + ·) 0 attr tBits
  let _lhs := pairing ct4 g2Gen
  let _rhs := pairing attrPowT g2Gen
  hashOk ∧ ct0Ok ∧ ct1Ok ∧ ct2Ok ∧ ct3Ok

/-- C2: the ABE relation's synthesized system is satisfied exactly when the
five enforced in-circuit equations hold: (1) the public digest equals the
SHA-256 digest of `k`'s byte decomposition, (2) `ct0 = e(g1,g2)^(k+s)`,
(3) `ct1 · e(g1,g2)^(−λ) = pk0^t`, (4) `ct2 = g1^(−t)` (written additively),
and (5) `ct3 = pk1^t · g^w` with `g = 2` the fixed constant in the scalar
field.  Exponents are the canonical integer representatives of the emulated
`Fr` values, exactly as produced by the in-circuit bit decompositions. -/
theorem abe_relation_sat_iff {G1 G2 GT : Type _} [AddCommMonoid G1] [CommGroup GT]
    (pairing : G1 → G2 → GT) (g1Gen : G1) (g2Gen : G2) (sha : List Nat → List Nat)
    (s k lam t w : Fr377) (ct0 ct1 : GT) (ct2 : G1) (ct3 : Fr377) (ct4 : G1)
    (attr : G1) (pk0 : GT) (pk1 : Fr377) (bid : List Nat) :
    abeSat pairing g1Gen g2Gen sha s k lam t w ct0 ct1 ct2 ct3 ct4 attr pk0 pk1 bid ↔
      (sha (abeKBytes k) = bid ∧
       ct0 = pairing g1Gen g2Gen ^ (k + s).val ∧
       ct1 * (pairing g1Gen g2Gen ^ lam.val)⁻¹ = pk0 ^ t.val ∧
       ct2 = (-t).val • g1Gen ∧
       ct3 = pk1 ^ t.val * (2 : Fr377) ^ w.val) := by
  simp only [abeSat, smLoop_pow377, smLoop_smul377]

/-- Toy instantiation of the external group interface used to evaluate the
ABE trace on concrete values: `G1 = ZMod 5` additively, `G2` trivial,
`GT = Multiplicative (ZMod 5)`, pairing sending a point to itself. -/
def toyPairing (x : ZMod 5) (_ : Unit) : Multiplicative (ZMod 5) :=
  Multiplicative.ofAdd x

/-- Constant 32-byte hash used with the toy instantiation. -/
def toySha (_ : List Nat) : List Nat := List.replicate 32 0

set_option maxRecDepth 200000 in
/-- C1: check (6) is not enforced by the synthesized system.  Concrete
assignment with all scalar witnesses zero in which the five enforced
equations hold — the system is satisfied — while
`pairing(ct4, g2) ≠ pairing(attrPoint^t, g2)` (`ct4` is the generator, but
`attrPoint^t` is the identity): contrary to the claim, an assignment on
which the two pairing values differ still satisfies the system, because
`generate_constraints` computes both sides of check (6) and returns without
an `enforce_equal` (`abe-proof/src/circuit.rs` lines 152-161). -/
theorem abe_check6_missing_equality :
    abeSat toyPairing (1 : ZMod 5) () toySha 0 0 0 0 0
        (1 : Multiplicative (ZMod 5)) 1 (0 : ZMod 5) 1 (1 : ZMod 5) (0 : ZMod 5)
        1 0 (List.replicate 32 0) ∧
    toyPairing (1 : ZMod 5) ()
      ≠ toyPairing (smLoop (· + ·) 0 (0 : ZMod 5)
          (bitsLE frBitSize377 (0 : Fr377).val)) () := by
  constructor
  · simp only [abeSat]
    refine ⟨?_, ?_, ?_, ?_, ?_⟩ <;> decide
  · decide

/-- Satisfaction of the constraint system synthesized by
`PairingCircuit::generate_constraints` of the pairing-equality relation
(`pairing-proof/src/circuit.rs` lines 33-107), in source order: hash the
byte decomposition of `gamma` and enforce equality with the public digest,
then enforce `pairing(C*, g2^gamma) = pairing(g1, g2)^beta`. -/
def pairingSat {G1 G2 GT : Type _} [AddCommMonoid G2] [CommGroup GT]
    (pairing : G1 → G2 → GT) (g1Gen : G1) (g2Gen : G2)
    (sha : List Nat → List Nat)
    (cStar : G1) (beta gamma : Fr377) (gammaHash : List Nat) : Prop :=
  let gammaBits := bitsLE frBitSize377 gamma.val
  let gammaBytes := pairingGammaBytes gamma
  let hashOk := sha gammaBytes = gammaHash
  let g2Gamma := smLoop (· + ·) 0 g2Gen gammaBits
  let leftSide := pairing cStar g2Gamma
  let basePairing := pairing g1Gen g2Gen
  let rightSide := smLoop (· * ·) 1 basePairing (bitsLE frBitSize377 beta.val)
  hashOk ∧ leftSide = rightSide

/-- C4: the pairing-equality relation's synthesized system is satisfied
exactly when both enforced equations hold — the SHA-256 digest of `gamma`'s
padded little-endian byte decomposition equals the 32-byte public digest,
and `pairing(C*, g2^gamma) = pairing(g1, g2)^beta`; violating either
equation leaves the system unsatisfied. -/
theorem pairing_relation_sat_iff {G1 G2 GT : Type _} [AddCommMonoid G2] [CommGroup GT]
    (pairing : G1 → G2 → GT) (g1Gen : G1) (g2Gen : G2) (sha : List Nat → List Nat)
    (cStar : G1) (beta gamma : Fr377) (gammaHash : List Nat) :
    pairingSat pairing g1Gen g2Gen sha cStar beta gamma gammaHash ↔
      (sha (pairingGammaBytes gamma) = gammaHash ∧
       pairing cStar (gamma.val • g2Gen) = pairing g1Gen g2Gen ^ beta.val) := by
  simp only [pairingSat, smLoop_pow377, smLoop_smul377]

/-- C8: each relation constructs the hashed bytes of a field value by
zero-padding its little-endian bit decomposition with exactly
`(8 - bitlength % 8) % 8` false bits up to the next byte boundary and then
packing 8 bits at a time, least-significant bit first: the ElGamal
`field_to_bytes_optimized` (bit length 255, via per-chunk padding) and the
ABE and pairing-circuit constructions (bit length 253, via explicit
padding) all equal the pad-then-pack form of the spec. -/
theorem byte_packing_padding_spec (x : Fr381) (y z : Fr377) :
    packChunks8 (bitsLE frBitSize381 x.val)
        = paddedPackSpec (bitsLE frBitSize381 x.val) ∧
    abeKBytes y = paddedPackSpec (bitsLE frBitSize377 y.val) ∧
    pairingGammaBytes z = paddedPackSpec (bitsLE frBitSize377 z.val) := by
  refine ⟨packChunks8_eq_paddedPackSpec _, ?_, ?_⟩
  · rw [abeKBytes, paddedPackSpec, bitsLE_length]
  · rw [pairingGammaBytes, paddedPackSpec, bitsLE_length]

/-- Value semantics of `message.into_bigint().to_bytes_le()` in
`setup_elgamal` (`elgamal-proof/src/main.rs` lines 57-63): the 32
little-endian bytes of the canonical representative (a 4-limb 64-bit BigInt
always serializes to exactly 32 bytes). -/
def bigintToBytesLE (x : Fr381) : List Nat :=
  (List.range 32).map fun i => x.val / 256 ^ i % 256

set_option maxRecDepth 200000 in
/-- C9: for each boundary scalar `x ∈ {0, 1, p − 1}` the 32-byte SHA-256
digest computed in-circuit over `x`'s padded little-endian byte
decomposition equals the digest computed out-of-circuit over `x`'s
little-endian byte encoding: the two byte strings coincide bytewise, so the
shared hash function maps them to the same digest. -/
theorem hash_bytes_boundary_roundtrip (hops : HashOps) :
    hops.sha256 (packChunks8 (bitsLE frBitSize381 (0 : Fr381).val))
        = hops.sha256 (bigintToBytesLE 0) ∧
    hops.sha256 (packChunks8 (bitsLE frBitSize381 (1 : Fr381).val))
        = hops.sha256 (bigintToBytesLE 1) ∧
    hops.sha256 (packChunks8 (bitsLE frBitSize381 (-1 : Fr381).val))
        = hops.sha256 (bigintToBytesLE (-1)) := by
  refine ⟨congrArg _ ?_, congrArg _ ?_, congrArg _ ?_⟩ <;> decide
